import Mathlib

/-!
Shallow embedding of the party-configuration search and ranking engine of
`src/main.rs` (the xiv-levelling tool): role tables, combination enumerator,
configuration validator, scorer, ranking store and result presenter, together
with proofs of the specified properties.
-/

set_option maxRecDepth 4000

namespace XivLevelling

/-- Role table `TANK` (`main.rs` line 73). -/
def TANK : List Nat := [1, 3, 32, 37]

/-- Role table `HEALER` (`main.rs` line 74). -/
def HEALER : List Nat := [6, 26, 33]

/-- Role table `DPS` (`main.rs` line 75). -/
def DPS : List Nat := [2, 4, 29, 34, 5, 31, 38, 7, 26, 35]

/-- A job record of one character: `ClassJob` (`main.rs` lines 45-58), with the
`unlocked_state.name` field flattened into `name` as the accessor does. -/
structure ClassJob where
  class_id : Nat
  level : Nat
  name : String
deriving Repr, DecidableEq, Inhabited

/-- `PlayerCharacter` (`main.rs` lines 60-65). -/
structure PlayerCharacter where
  class_jobs : List ClassJob
  name : String
deriving Repr, DecidableEq, Inhabited

/-- `PartyConfig` (`main.rs` lines 77-82); the source uses a fixed
`[usize; 4]` index array, modelled as the list of four entries. -/
structure PartyConfig where
  index : List Nat
  var : Nat
  avg : Nat
deriving Repr, DecidableEq, Inhabited

/-- The chosen jobs of an assignment: `party[i].class_jobs[combination[i]]`
for each member (`main.rs` line 172).  Returns `none` exactly when some
index is out of bounds (in Rust that access panics); the search loop always
runs it with one combination digit per member. -/
def chosen : List PlayerCharacter → List Nat → Option (List ClassJob)
  | [], [] => some []
  | p :: ps, c :: cs =>
    match p.class_jobs.get? c, chosen ps cs with
    | some j, some js => some (j :: js)
    | _, _ => none
  | _, _ => none

/-- `num_tanks` accumulated by the validation loop (`main.rs` lines 174-175). -/
def num_tanks (jobs : List ClassJob) : Nat :=
  jobs.countP (fun j => TANK.contains j.class_id)

/-- `num_healers` accumulated by the validation loop (`main.rs` lines
176-177): counted only when the `TANK` branch did not fire. -/
def num_healers (jobs : List ClassJob) : Nat :=
  jobs.countP (fun j => !TANK.contains j.class_id && HEALER.contains j.class_id)

/-- `all_unlocked` after the validation loop (`main.rs` lines 180-181):
falsified by any job of level 0. -/
def all_unlocked (jobs : List ClassJob) : Bool :=
  jobs.all (fun j => j.level != 0)

/-- `all_max` after the validation loop (`main.rs` lines 182-184):
falsified only by a job whose level is non-zero and below 80. -/
def all_max (jobs : List ClassJob) : Bool :=
  jobs.all (fun j => !(j.level != 0 && j.level < 80))

/-- The acceptance test of the search loop (`main.rs` line 187). -/
def acceptsJobs (jobs : List ClassJob) : Bool :=
  num_tanks jobs == 1 && num_healers jobs == 1 &&
    all_unlocked jobs && !all_max jobs

/-- Whether the search loop pushes a configuration for this assignment:
the chosen jobs exist and pass the acceptance test (`main.rs` lines 165-213). -/
def pushesConfig (party : List PlayerCharacter) (comb : List Nat) : Bool :=
  match chosen party comb with
  | some jobs => acceptsJobs jobs
  | none => false

/-- The `var` accumulation of the scoring block (`main.rs` lines 192-201):
the double loop over `0..combination.len()` adding
`abs(job1.level - job2.level)` for every ordered pair `i != j`. -/
def var_sum (levels : List Nat) : Nat :=
  ∑ i ∈ Finset.range levels.length, ∑ j ∈ Finset.range levels.length,
    if i ≠ j then Int.natAbs ((levels.getD i 0 : Int) - (levels.getD j 0 : Int))
    else 0

/-- The `avg` accumulation of the scoring block (`main.rs` lines 203-206):
the loop sums `job1.level` over `0..combination.len()`, then divides by
`combination.len()` (integer division). -/
def avg_sum (levels : List Nat) (n : Nat) : Nat :=
  (∑ i ∈ Finset.range n, levels.getD i 0) / n

/-- The `PartyConfig` built and pushed by the search loop for an accepted
assignment (`main.rs` lines 188-212): the combination is copied into slots
`0..len` of the `[0, 0, 0, 0]` index array. -/
def score (comb : List Nat) (jobs : List ClassJob) : PartyConfig :=
  { index := comb ++ List.replicate (4 - comb.length) 0,
    var := var_sum (jobs.map (fun j => j.level)),
    avg := avg_sum (jobs.map (fun j => j.level)) comb.length }

/-- One advance of the odometer (`main.rs` lines 215-222), written as a
right-to-left carry: the last digit increments; a digit reaching its
member's job-count resets to 0 and carries into the previous digit.
Returns the new combination and whether the carry ran off the left end. -/
def inc : List Nat → List Nat → List Nat × Bool
  | [], [] => ([], true)
  | n :: ns, c :: cs =>
    let r := inc ns cs
    if r.2 then
      if c + 1 ≥ n then (0 :: r.1, true) else ((c + 1) :: r.1, false)
    else (c :: r.1, false)
  | _, _ => ([], true)

/-- The initial all-zero combination (`main.rs` lines 160-163). -/
def zeros (counts : List Nat) : List Nat :=
  counts.map (fun _ => 0)

/-- The `back_to_start` test (`main.rs` lines 224-230). -/
def allZero (comb : List Nat) : Bool :=
  comb.all (fun c => c == 0)

/-- The search loop's sequence of processed assignments (`main.rs` lines
165-235): each iteration processes the current combination, advances the
odometer, and stops when the combination has returned to all zeros.  `fuel`
bounds the recursion; the `Bool` records whether the loop terminated within
the given fuel. -/
def runEnum (counts : List Nat) : Nat → List Nat → List (List Nat) × Bool
  | 0, _ => ([], false)
  | fuel + 1, comb =>
    let next := (inc counts comb).1
    if allZero next then ([comb], true)
    else
      let r := runEnum counts fuel next
      (comb :: r.1, r.2)

/-- The job-count of each party member, the radix of each odometer digit
(`main.rs` line 217). -/
def jobCounts (party : List PlayerCharacter) : List Nat :=
  party.map (fun p => p.class_jobs.length)

/-- `m` successive advances of the odometer. -/
def incN (counts : List Nat) : Nat → List Nat → List Nat
  | 0, comb => comb
  | m + 1, comb => (inc counts (incN counts m comb)).1

/-- Reference digits of mixed-radix counting, most-significant digit first
(the last digit varies fastest).  Modelled from the spec's words
("mixed-radix counting order with the last Member's index varying fastest")
as the value the enumerator is claimed to refine. -/
def mixedRadix : List Nat → Nat → List Nat
  | [], _ => []
  | _ :: ns, k => k / ns.prod :: mixedRadix ns (k % ns.prod)

/-- The sum over unordered pairs of members of the absolute level
difference.  Modelled from the spec's words ("twice the sum over unordered
pairs of absolute level differences") as the reference value the variance
is claimed to double. -/
def pairSum (levels : List Nat) : Nat :=
  ∑ i ∈ Finset.range levels.length, ∑ j ∈ Finset.range levels.length,
    if i < j then Int.natAbs ((levels.getD i 0 : Int) - (levels.getD j 0 : Int))
    else 0

/-- `PartyConfig`'s comparison (`main.rs` lines 84-94): the ordering on
`var` is reversed (`other.var.cmp(&self.var)`), so the max-heap's greatest
element is the configuration of least variance. -/
def PartyConfig.cmp (s o : PartyConfig) : Ordering :=
  compare o.var s.var

/-- `BinaryHeap::pop` on the ranking store: removes and returns a greatest
element under `PartyConfig.cmp` (`main.rs` lines 158, 239), or `none` when
the store is empty. -/
def popBest : List PartyConfig → Option (PartyConfig × List PartyConfig)
  | [] => none
  | c :: cs =>
    match popBest cs with
    | none => some (c, [])
    | some (m, rest) =>
      if (PartyConfig.cmp c m).isGE then some (c, cs) else some (m, c :: rest)

/-- Fuelled repeated popping; each pop removes one element, so fuel equal
to the store's size performs a full drain. -/
def drainFuel : Nat → List PartyConfig → List PartyConfig
  | 0, _ => []
  | fuel + 1, l =>
    match popBest l with
    | none => []
    | some (c, rest) => c :: drainFuel fuel rest

/-- Repeatedly popping the ranking store until it is empty; the sequence of
configurations a full drain returns. -/
def drain (l : List PartyConfig) : List PartyConfig :=
  drainFuel l.length l

/-- Fuelled form of the result-presentation loop (`main.rs` lines 237-251).
State: the remaining store, the current (trimmed) `input` string, and the
position in the stream of lines the user will type.  Returns the
configurations printed and the number of `read_line` calls performed.  Each
iteration first checks `input == "q"` and store emptiness, then pops and
prints one configuration, then performs exactly one blocking read. -/
def presentFuel (inputs : Nat → String) :
    Nat → List PartyConfig → String → Nat → List PartyConfig × Nat
  | 0, _, _, _ => ([], 0)
  | fuel + 1, l, input, k =>
    if input = "q" then ([], 0)
    else
      match popBest l with
      | none => ([], 0)
      | some (c, rest) =>
        let r := presentFuel inputs fuel rest (inputs k) (k + 1)
        (c :: r.1, r.2 + 1)

/-- The presentation loop on a store: each pop shrinks the store, so fuel
equal to the store's size never runs out. -/
def presentLoop (inputs : Nat → String) (l : List PartyConfig)
    (input : String) (k : Nat) : List PartyConfig × Nat :=
  presentFuel inputs l.length l input k

/-- The presenter as run by `main`: the initial `input` is the empty string
(`main.rs` line 237) and reading starts at the first line the user types. -/
def presenter (inputs : Nat → String) (l : List PartyConfig) :
    List PartyConfig × Nat :=
  presentLoop inputs l "" 0

/-- A concrete two-member party used to instantiate theorems that carry
hypotheses: member A owns two jobs (Gladiator 50, Pugilist 30), member B
owns one (Conjurer 50). -/
def partyW : List PlayerCharacter :=
  [⟨[⟨1, 50, "GLA"⟩, ⟨2, 30, "PGL"⟩], "A"⟩, ⟨[⟨6, 50, "CNJ"⟩], "B"⟩]

theorem chosen_length :
    ∀ {party : List PlayerCharacter} {comb : List Nat}
      {jobs : List ClassJob}, chosen party comb = some jobs →
      jobs.length = comb.length ∧ party.length = comb.length := by
  intro party
  induction party with
  | nil =>
    intro comb jobs h
    cases comb with
    | nil => simp [chosen] at h; simp [← h]
    | cons c cs => simp [chosen] at h
  | cons p ps ih =>
    intro comb jobs h
    cases comb with
    | nil => simp [chosen] at h
    | cons c cs =>
      simp only [chosen] at h
      cases hj : p.class_jobs.get? c with
      | none => rw [hj] at h; simp at h
      | some j =>
        rw [hj] at h
        cases hr : chosen ps cs with
        | none => rw [hr] at h; simp at h
        | some js =>
          rw [hr] at h
          simp at h
          obtain ⟨hl, _⟩ := ih hr
          simp [← h, hl]
          omega

theorem cmp_isGE_iff (a b : PartyConfig) :
    (PartyConfig.cmp a b).isGE = true ↔ a.var ≤ b.var := by
  unfold PartyConfig.cmp
  rcases Nat.lt_trichotomy b.var a.var with h | h | h
  · rw [Nat.compare_eq_lt.mpr h]
    simp [Ordering.isGE]
    omega
  · rw [h, Nat.compare_eq_eq.mpr rfl]
    simp [Ordering.isGE]
  · rw [Nat.compare_eq_gt.mpr h]
    simp [Ordering.isGE]
    omega

theorem popBest_eq_none {l : List PartyConfig} :
    popBest l = none ↔ l = [] := by
  cases l with
  | nil => simp [popBest]
  | cons c cs =>
    simp only [popBest]
    cases h : popBest cs with
    | none => simp
    | some p =>
      obtain ⟨m, rest⟩ := p
      by_cases hge : (PartyConfig.cmp c m).isGE = true <;> simp [hge]

theorem popBest_length {l : List PartyConfig} {c : PartyConfig}
    {rest : List PartyConfig} (h : popBest l = some (c, rest)) :
    rest.length + 1 = l.length := by
  induction l generalizing c rest with
  | nil => simp [popBest] at h
  | cons a as ih =>
    simp only [popBest] at h
    cases hp : popBest as with
    | none =>
      rw [hp] at h
      obtain rfl : as = [] := popBest_eq_none.mp hp
      simp at h
      simp [h.2]
    | some p =>
      obtain ⟨m, r⟩ := p
      rw [hp] at h
      by_cases hge : (PartyConfig.cmp a m).isGE = true
      · simp [hge] at h
        simp [h.2]
      · simp [hge] at h
        obtain ⟨rfl, rfl⟩ := h
        simpa using ih hp

theorem popBest_cover {l : List PartyConfig} {c : PartyConfig}
    {rest : List PartyConfig} (h : popBest l = some (c, rest)) :
    ∀ x ∈ l, x = c ∨ x ∈ rest := by
  induction l generalizing c rest with
  | nil => simp [popBest] at h
  | cons a as ih =>
    simp only [popBest] at h
    cases hp : popBest as with
    | none =>
      rw [hp] at h
      obtain rfl : as = [] := popBest_eq_none.mp hp
      simp at h
      obtain ⟨rfl, rfl⟩ := h
      simp
    | some p =>
      obtain ⟨m, r⟩ := p
      rw [hp] at h
      by_cases hge : (PartyConfig.cmp a m).isGE = true
      · simp [hge] at h
        obtain ⟨rfl, rfl⟩ := h
        intro x hx
        rcases List.mem_cons.mp hx with rfl | hxr
        · exact Or.inl rfl
        · exact Or.inr hxr
      · simp [hge] at h
        obtain ⟨rfl, rfl⟩ := h
        intro x hx
        rcases List.mem_cons.mp hx with rfl | hxr
        · exact Or.inr (List.mem_cons_self _ _)
        · rcases ih hp x hxr with rfl | hxr'
          · exact Or.inl rfl
          · exact Or.inr (List.mem_cons_of_mem _ hxr')

theorem popBest_self_mem {l : List PartyConfig} {c : PartyConfig}
    {rest : List PartyConfig} (h : popBest l = some (c, rest)) :
    c ∈ l := by
  induction l generalizing c rest with
  | nil => simp [popBest] at h
  | cons a as ih =>
    simp only [popBest] at h
    cases hp : popBest as with
    | none =>
      rw [hp] at h
      simp at h
      simp [h.1]
    | some p =>
      obtain ⟨m, r⟩ := p
      rw [hp] at h
      by_cases hge : (PartyConfig.cmp a m).isGE = true
      · simp [hge] at h
        simp [h.1]
      · simp [hge] at h
        obtain ⟨rfl, rfl⟩ := h
        exact List.mem_cons_of_mem _ (ih hp)

theorem popBest_min {l : List PartyConfig} {c : PartyConfig}
    {rest : List PartyConfig} (h : popBest l = some (c, rest)) :
    ∀ x ∈ rest, c.var ≤ x.var := by
  induction l generalizing c rest with
  | nil => simp [popBest] at h
  | cons a as ih =>
    simp only [popBest] at h
    cases hp : popBest as with
    | none =>
      rw [hp] at h
      simp at h
      simp [h.2]
    | some p =>
      obtain ⟨m, r⟩ := p
      rw [hp] at h
      have hmin := ih hp
      by_cases hge : (PartyConfig.cmp a m).isGE = true
      · simp [hge] at h
        obtain ⟨rfl, rfl⟩ := h
        have hle : a.var ≤ m.var := (cmp_isGE_iff a m).mp hge
        intro x hx
        rcases popBest_cover hp x hx with rfl | hxr
        · exact hle
        · exact le_trans hle (hmin x hxr)
      · simp [hge] at h
        obtain ⟨rfl, rfl⟩ := h
        have hlt : m.var ≤ a.var := by
          have := (cmp_isGE_iff a m).not.mp hge
          omega
        intro x hx
        rcases List.mem_cons.mp hx with rfl | hxr
        · exact hlt
        · exact hmin x hxr

theorem drain_none {l : List PartyConfig} (h : popBest l = none) :
    drain l = [] := by
  obtain rfl := popBest_eq_none.mp h
  rfl

theorem drain_some {l : List PartyConfig} {c : PartyConfig}
    {rest : List PartyConfig} (h : popBest l = some (c, rest)) :
    drain l = c :: drain rest := by
  have hl := popBest_length h
  unfold drain
  rw [← hl]
  simp [drainFuel, h]

theorem presentLoop_q (inputs : Nat → String) (l : List PartyConfig)
    (k : Nat) : presentLoop inputs l "q" k = ([], 0) := by
  unfold presentLoop
  cases l.length <;> simp [presentFuel]

theorem presentLoop_none (inputs : Nat → String) {l : List PartyConfig}
    (input : String) (k : Nat) (h : popBest l = none) :
    presentLoop inputs l input k = ([], 0) := by
  obtain rfl := popBest_eq_none.mp h
  rfl

theorem presentLoop_some (inputs : Nat → String) {l : List PartyConfig}
    {c : PartyConfig} {rest : List PartyConfig} (input : String) (k : Nat)
    (hin : input ≠ "q") (h : popBest l = some (c, rest)) :
    presentLoop inputs l input k =
      (c :: (presentLoop inputs rest (inputs k) (k + 1)).1,
       (presentLoop inputs rest (inputs k) (k + 1)).2 + 1) := by
  have hl := popBest_length h
  unfold presentLoop
  rw [← hl]
  simp [presentFuel, h, hin]

theorem drain_var_chain :
    ∀ n (l : List PartyConfig), l.length = n →
      List.Chain' (fun a b => a ≤ b) ((drain l).map PartyConfig.var) := by
  intro n
  induction n using Nat.strong_induction_on with
  | _ n ih =>
    intro l hlen
    cases hp : popBest l with
    | none => simp [drain_none hp]
    | some p =>
      obtain ⟨c, rest⟩ := p
      have hl := popBest_length hp
      rw [drain_some hp, List.map_cons, List.chain'_cons']
      constructor
      · intro b hb
        cases hr : popBest rest with
        | none => simp [drain_none hr] at hb
        | some q =>
          obtain ⟨c2, rest2⟩ := q
          rw [drain_some hr] at hb
          simp at hb
          rw [← hb]
          exact popBest_min hp c2 (popBest_self_mem hr)
      · exact ih rest.length (by omega) rest rfl

theorem presentLoop_counts (inputs : Nat → String)
    (hq : ∀ i, inputs i ≠ "q") :
    ∀ n (l : List PartyConfig), l.length = n →
      ∀ (input : String) (k : Nat), input ≠ "q" →
        (presentLoop inputs l input k).1.length = l.length ∧
        (presentLoop inputs l input k).2 = l.length := by
  intro n
  induction n using Nat.strong_induction_on with
  | _ n ih =>
    intro l hlen input k hin
    cases hp : popBest l with
    | none =>
      obtain rfl := popBest_eq_none.mp hp
      simp [presentLoop_none inputs input k hp]
    | some p =>
      obtain ⟨c, rest⟩ := p
      have hl := popBest_length hp
      rw [presentLoop_some inputs input k hin hp]
      have hrec := ih rest.length (by omega) rest rfl (inputs k) (k + 1) (hq k)
      simp [hrec.1, hrec.2]
      omega

/-- C3: repeatedly popping the ranking store yields configurations whose
`var` values form a non-decreasing sequence, because `PartyConfig`'s
reversed comparison makes the binary max-heap pop the least variance
first. -/
theorem popBest_sequence_var_nondecreasing (l : List PartyConfig) :
    List.Chain' (fun a b => a ≤ b) ((drain l).map PartyConfig.var) :=
  drain_var_chain l.length l rfl

/-- C9: on an empty ranking store the presenter prints nothing and performs
no input read: the loop condition fails immediately. -/
theorem presenter_empty_store_does_nothing (inputs : Nat → String) :
    presenter inputs [] = ([], 0) := by
  unfold presenter
  exact presentLoop_none inputs "" 0 rfl

/-- C10: on a non-empty ranking store, when the user never types `q`, the
presenter prints every configuration and performs exactly one blocking read
after each printed configuration — including after the final one, since
emptiness is only re-checked at the top of the loop: the number of reads
equals the number of configurations printed. -/
theorem presenter_one_read_per_print (inputs : Nat → String)
    (l : List PartyConfig) (hne : l ≠ []) (hq : ∀ i, inputs i ≠ "q") :
    (presenter inputs l).1.length = l.length ∧
    (presenter inputs l).2 = l.length := by
  unfold presenter
  exact presentLoop_counts inputs hq l.length l rfl "" 0 (by decide)

/-- Witness for C10 at a concrete store of one configuration and a user who
keeps pressing enter: one configuration printed, one read performed. -/
theorem presenter_one_read_per_print_witness :
    (presenter (fun _ => "") [⟨[0, 0, 0, 0], 0, 50⟩]).1.length = 1 ∧
    (presenter (fun _ => "") [⟨[0, 0, 0, 0], 0, 50⟩]).2 = 1 := by
  have h := presenter_one_read_per_print (fun _ => "")
    [⟨[0, 0, 0, 0], 0, 50⟩] (by simp)
    (by intro i; show ("" : String) ≠ "q"; decide)
  simpa using h

/-- Counterexample to C5: job identifier 26 (Arcanist) appears in both the
`HEALER` table and the `DPS` table, so the three role sets are not pairwise
disjoint. -/
theorem role_sets_not_pairwise_disjoint :
    26 ∈ HEALER ∧ 26 ∈ DPS := by decide

/-- C5 (amended): `TANK` is disjoint from both `HEALER` and `DPS`, while
`HEALER` and `DPS` overlap in exactly the job identifier 26. -/
theorem role_sets_overlap_exactly_at_26 :
    TANK.filter (fun x => HEALER.contains x || DPS.contains x) = [] ∧
    HEALER.filter (fun x => TANK.contains x) = [] ∧
    DPS.filter (fun x => TANK.contains x) = [] ∧
    HEALER.filter (fun x => DPS.contains x) = [26] ∧
    DPS.filter (fun x => HEALER.contains x) = [26] := by decide

theorem mem_HEALER_not_mem_TANK {c : Nat} (h : c ∈ HEALER) : c ∉ TANK := by
  simp [HEALER] at h
  rcases h with rfl | rfl | rfl <;> decide

theorem acceptsJobs_iff (jobs : List ClassJob) :
    acceptsJobs jobs = true ↔
      ((jobs.filter (fun j => TANK.contains j.class_id)).length = 1 ∧
       (jobs.filter (fun j => HEALER.contains j.class_id)).length = 1 ∧
       (∀ j ∈ jobs, 0 < j.level) ∧
       ¬ (∀ j ∈ jobs, 80 ≤ j.level)) := by
  unfold acceptsJobs num_tanks num_healers all_unlocked all_max
  rw [List.countP_eq_length_filter, List.countP_eq_length_filter]
  have hfil : jobs.filter
        (fun j => !TANK.contains j.class_id && HEALER.contains j.class_id)
      = jobs.filter (fun j => HEALER.contains j.class_id) := by
    apply List.filter_congr
    intro j _
    cases hH : HEALER.contains j.class_id
    · simp
    · have hmem : j.class_id ∈ HEALER := by simpa using hH
      have hnt := mem_HEALER_not_mem_TANK hmem
      have hT : TANK.contains j.class_id = false := by simpa using hnt
      simp [hT]
      exact hnt
  rw [hfil]
  simp only [Bool.and_eq_true, beq_iff_eq, Bool.not_eq_true',
    List.all_eq_true, List.all_eq_false, bne_iff_ne, ne_eq]
  constructor
  · rintro ⟨⟨⟨hT, hH⟩, hU⟩, hM⟩
    refine ⟨hT, hH, ?_, ?_⟩
    · intro j hj
      have := hU j hj
      omega
    · intro hall
      obtain ⟨j, hj, hcon⟩ := hM
      have h80 := hall j hj
      have h0 := hU j hj
      simp at hcon
      omega
  · rintro ⟨hT, hH, hU, hM⟩
    refine ⟨⟨⟨hT, hH⟩, ?_⟩, ?_⟩
    · intro j hj
      have := hU j hj
      omega
    · rw [Classical.not_forall] at hM
      obtain ⟨j, hj⟩ := hM
      rw [Classical.not_imp] at hj
      refine ⟨j, hj.1, ?_⟩
      have := hU j hj.1
      simp
      omega

/-- C1: for a party of 2-4 members, each with at least one job record, the
search pushes a configuration for an assignment exactly when one chosen job
is in the Tank table, one in the Healer table, every chosen job's level is
positive, and not every chosen level is at or above the cap of 80. -/
theorem search_accepts_iff (party : List PlayerCharacter) (comb : List Nat)
    (jobs : List ClassJob)
    (hsize : 2 ≤ party.length ∧ party.length ≤ 4)
    (hmem : ∀ p ∈ party, p.class_jobs ≠ [])
    (hch : chosen party comb = some jobs) :
    pushesConfig party comb = true ↔
      ((jobs.filter (fun j => TANK.contains j.class_id)).length = 1 ∧
       (jobs.filter (fun j => HEALER.contains j.class_id)).length = 1 ∧
       (∀ j ∈ jobs, 0 < j.level) ∧
       ¬ (∀ j ∈ jobs, 80 ≤ j.level)) := by
  unfold pushesConfig
  rw [hch]
  exact acceptsJobs_iff jobs

/-- Witness for C1: a two-member party (a level-50 Gladiator and a level-50
Conjurer) at the all-zero assignment is accepted. -/
theorem search_accepts_iff_witness :
    pushesConfig
      [⟨[⟨1, 50, "GLA"⟩], "A"⟩, ⟨[⟨6, 50, "CNJ"⟩], "B"⟩] [0, 0] = true := by
  have h := search_accepts_iff
    [⟨[⟨1, 50, "GLA"⟩], "A"⟩, ⟨[⟨6, 50, "CNJ"⟩], "B"⟩] [0, 0]
    [⟨1, 50, "GLA"⟩, ⟨6, 50, "CNJ"⟩]
    (by decide) (by decide) (by decide)
  exact h.mpr (by decide)

theorem var_sum_eq_two_mul_pairSum (levels : List Nat) :
    var_sum levels = 2 * pairSum levels := by
  unfold var_sum pairSum
  set n := levels.length with hn
  set d : Nat → Nat → Nat :=
    fun i j => Int.natAbs ((levels.getD i 0 : Int) - (levels.getD j 0 : Int))
    with hd
  have hsymm : ∀ i j, d i j = d j i := by
    intro i j
    rw [hd]
    simp only []
    omega
  have hsplit : ∀ i j : Nat, (if i ≠ j then d i j else 0)
      = (if i < j then d i j else 0) + (if j < i then d i j else 0) := by
    intro i j
    rcases lt_trichotomy i j with h | h | h
    · rw [if_pos (Nat.ne_of_lt h), if_pos h, if_neg (by omega)]
      omega
    · rw [if_neg (by omega), if_neg (by omega), if_neg (by omega)]
    · rw [if_pos (by omega), if_neg (by omega), if_pos h]
      omega
  have hswap : (∑ i ∈ Finset.range n, ∑ j ∈ Finset.range n,
        if j < i then d i j else 0)
      = ∑ i ∈ Finset.range n, ∑ j ∈ Finset.range n,
        if i < j then d i j else 0 := by
    rw [Finset.sum_comm]
    apply Finset.sum_congr rfl
    intro i _
    apply Finset.sum_congr rfl
    intro j _
    rw [hsymm i j]
  calc (∑ i ∈ Finset.range n, ∑ j ∈ Finset.range n,
          if i ≠ j then d i j else 0)
      = ∑ i ∈ Finset.range n, ∑ j ∈ Finset.range n,
          ((if i < j then d i j else 0) + (if j < i then d i j else 0)) := by
        apply Finset.sum_congr rfl
        intro i _
        apply Finset.sum_congr rfl
        intro j _
        exact hsplit i j
    _ = (∑ i ∈ Finset.range n, ∑ j ∈ Finset.range n,
          if i < j then d i j else 0)
        + (∑ i ∈ Finset.range n, ∑ j ∈ Finset.range n,
          if j < i then d i j else 0) := by
        rw [← Finset.sum_add_distrib]
        apply Finset.sum_congr rfl
        intro i _
        rw [Finset.sum_add_distrib]
    _ = 2 * ∑ i ∈ Finset.range n, ∑ j ∈ Finset.range n,
          if i < j then d i j else 0 := by
        rw [hswap]
        ring

/-- C2: the variance field of every configuration the search builds is the
sum of absolute level differences over all ordered pairs of distinct
members; it equals twice the sum over unordered pairs and is always even. -/
theorem pushed_config_variance (comb : List Nat) (jobs : List ClassJob) :
    (score comb jobs).var = var_sum (jobs.map (fun j => j.level)) ∧
    (score comb jobs).var = 2 * pairSum (jobs.map (fun j => j.level)) ∧
    Even ((score comb jobs).var) := by
  have hv : (score comb jobs).var = var_sum (jobs.map (fun j => j.level)) :=
    rfl
  refine ⟨hv, ?_, ?_⟩
  · rw [hv, var_sum_eq_two_mul_pairSum]
  · rw [hv, var_sum_eq_two_mul_pairSum]
    exact even_two_mul _

theorem sum_range_getD (l : List Nat) :
    (∑ i ∈ Finset.range l.length, l.getD i 0) = l.sum := by
  induction l with
  | nil => simp
  | cons a t ih =>
    rw [List.length_cons, Finset.sum_range_succ']
    simp only [List.getD_cons_succ, List.getD_cons_zero]
    rw [ih, List.sum_cons]
    omega

/-- C8: the average-level field of every configuration the search pushes is
the floor of the sum of the chosen jobs' levels divided by the party size:
`n * avg ≤ sum < n * (avg + 1)` where `n` is the party size. -/
theorem pushed_config_average (party : List PlayerCharacter)
    (comb : List Nat) (jobs : List ClassJob)
    (hch : chosen party comb = some jobs) (hp : 2 ≤ party.length) :
    (score comb jobs).avg
        = (jobs.map (fun j => j.level)).sum / party.length ∧
    party.length * (score comb jobs).avg
        ≤ (jobs.map (fun j => j.level)).sum ∧
    (jobs.map (fun j => j.level)).sum
        < party.length * ((score comb jobs).avg + 1) := by
  obtain ⟨hjl, hpl⟩ := chosen_length hch
  have hv : (score comb jobs).avg
      = avg_sum (jobs.map (fun j => j.level)) comb.length := rfl
  have hlen : (jobs.map (fun j => j.level)).length = comb.length := by
    simp [hjl]
  have hsum : (∑ i ∈ Finset.range comb.length,
        (jobs.map (fun j => j.level)).getD i 0)
      = (jobs.map (fun j => j.level)).sum := by
    rw [← hlen]
    exact sum_range_getD _
  have havg : (score comb jobs).avg
      = (jobs.map (fun j => j.level)).sum / party.length := by
    rw [hv]
    unfold avg_sum
    rw [hsum, hpl]
  refine ⟨havg, ?_, ?_⟩
  · rw [havg]
    calc party.length * ((jobs.map (fun j => j.level)).sum / party.length)
        ≤ party.length * ((jobs.map (fun j => j.level)).sum / party.length)
          + (jobs.map (fun j => j.level)).sum % party.length := by omega
      _ = (jobs.map (fun j => j.level)).sum := Nat.div_add_mod _ _
  · rw [havg]
    have h0 : 0 < party.length := by omega
    have hmod := Nat.mod_lt (jobs.map (fun j => j.level)).sum h0
    calc (jobs.map (fun j => j.level)).sum
        = party.length * ((jobs.map (fun j => j.level)).sum / party.length)
          + (jobs.map (fun j => j.level)).sum % party.length :=
          (Nat.div_add_mod _ _).symm
      _ < party.length * ((jobs.map (fun j => j.level)).sum / party.length)
          + party.length := by omega
      _ = party.length
          * ((jobs.map (fun j => j.level)).sum / party.length + 1) := by
          ring

/-- Witness for C8: a two-member party with levels 50 and 51 yields an
average level of 101 / 2 = 50. -/
theorem pushed_config_average_witness :
    (score [0, 0] [⟨1, 50, "GLA"⟩, ⟨6, 51, "CNJ"⟩]).avg = 50 := by
  have h := pushed_config_average
    [⟨[⟨1, 50, "GLA"⟩], "A"⟩, ⟨[⟨6, 51, "CNJ"⟩], "B"⟩] [0, 0]
    [⟨1, 50, "GLA"⟩, ⟨6, 51, "CNJ"⟩] (by decide) (by decide)
  rw [h.1]
  decide

theorem one_le_prod_counts {counts : List Nat}
    (h : ∀ c ∈ counts, 1 ≤ c) : 1 ≤ counts.prod := by
  induction counts with
  | nil => simp
  | cons n ns ih =>
    rw [List.prod_cons]
    have h1 := h n (List.mem_cons_self _ _)
    have h2 := ih (fun c hc => h c (List.mem_cons_of_mem _ hc))
    calc 1 = 1 * 1 := rfl
      _ ≤ n * ns.prod := Nat.mul_le_mul h1 h2

theorem mixedRadix_zero : ∀ counts : List Nat,
    mixedRadix counts 0 = zeros counts := by
  intro counts
  induction counts with
  | nil => rfl
  | cons n ns ih => simp [mixedRadix, zeros, ih]

theorem mixedRadix_length : ∀ (counts : List Nat) (k : Nat),
    (mixedRadix counts k).length = counts.length := by
  intro counts
  induction counts with
  | nil => intro k; rfl
  | cons n ns ih => intro k; simp [mixedRadix, ih]

theorem allZero_iff_eq_zeros : ∀ (counts : List Nat) (l : List Nat),
    l.length = counts.length → (allZero l = true ↔ l = zeros counts) := by
  intro counts
  induction counts with
  | nil =>
    intro l hl
    rw [List.length_nil, List.length_eq_zero] at hl
    subst hl
    simp [allZero, zeros]
  | cons n ns ih =>
    intro l hl
    cases l with
    | nil => simp at hl
    | cons a t =>
      simp only [List.length_cons] at hl
      have ht := ih t (by omega)
      unfold allZero at ht ⊢
      rw [show zeros (n :: ns) = 0 :: zeros ns from rfl]
      rw [List.all_cons, Bool.and_eq_true, beq_iff_eq, List.cons.injEq]
      exact and_congr Iff.rfl ht

theorem mixedRadix_eq_zeros_iff :
    ∀ (counts : List Nat), (∀ c ∈ counts, 1 ≤ c) →
      ∀ k, k < counts.prod → (mixedRadix counts k = zeros counts ↔ k = 0) := by
  intro counts
  induction counts with
  | nil =>
    intro _ k hk
    simp only [List.prod_nil] at hk
    constructor
    · intro _; omega
    · intro _; rfl
  | cons n ns ih =>
    intro h k hk
    have hns : ∀ c ∈ ns, 1 ≤ c := fun c hc => h c (List.mem_cons_of_mem _ hc)
    have hP : 1 ≤ ns.prod := one_le_prod_counts hns
    have hkP : k % ns.prod < ns.prod := Nat.mod_lt _ (by omega)
    have hdm := Nat.div_add_mod k ns.prod
    constructor
    · intro heq
      simp only [mixedRadix, zeros, List.map_cons] at heq
      have h1 : k / ns.prod = 0 := (List.cons.injEq _ _ _ _ ▸ heq).1
      have h2 : mixedRadix ns (k % ns.prod) = zeros ns :=
        (List.cons.injEq _ _ _ _ ▸ heq).2
      have h3 : k % ns.prod = 0 := (ih hns (k % ns.prod) hkP).mp h2
      rw [h1, Nat.mul_zero, Nat.zero_add] at hdm
      omega
    · rintro rfl
      exact mixedRadix_zero _

theorem inc_mixedRadix :
    ∀ (counts : List Nat), (∀ c ∈ counts, 1 ≤ c) →
      ∀ k, k < counts.prod →
      inc counts (mixedRadix counts k)
        = (if k + 1 = counts.prod then zeros counts
           else mixedRadix counts (k + 1),
           decide (k + 1 = counts.prod)) := by
  intro counts
  induction counts with
  | nil =>
    intro _ k hk
    simp only [List.prod_nil] at hk
    have hk0 : k = 0 := by omega
    subst hk0
    simp [mixedRadix, inc, zeros]
  | cons n ns ih =>
    intro h k hk
    have hns : ∀ c ∈ ns, 1 ≤ c := fun c hc => h c (List.mem_cons_of_mem _ hc)
    have hn1 : 1 ≤ n := h n (List.mem_cons_self _ _)
    have hP : 1 ≤ ns.prod := one_le_prod_counts hns
    rw [List.prod_cons] at hk
    have hkP : k % ns.prod < ns.prod := Nat.mod_lt _ (by omega)
    have hdiv : k / ns.prod < n := (Nat.div_lt_iff_lt_mul (by omega)).mpr hk
    have hdm := Nat.div_add_mod k ns.prod
    have hih := ih hns (k % ns.prod) hkP
    simp only [mixedRadix, inc]
    rw [hih]
    by_cases hc : k % ns.prod + 1 = ns.prod
    · by_cases hd : n ≤ k / ns.prod + 1
      · -- both the last digit and the whole odometer wrap: k + 1 is the
        -- full product
        have hq : k / ns.prod + 1 = n := by omega
        have hkeq : k + 1 = n * ns.prod := by
          calc k + 1
              = ns.prod * (k / ns.prod) + (k % ns.prod + 1) := by omega
            _ = ns.prod * (k / ns.prod) + ns.prod := by omega
            _ = ns.prod * (k / ns.prod + 1) := (Nat.mul_succ _ _).symm
            _ = ns.prod * n := by rw [hq]
            _ = n * ns.prod := Nat.mul_comm _ _
        have hkeq' : k + 1 = (n :: ns).prod := by
          rw [List.prod_cons]
          exact hkeq
        rw [if_pos hkeq']
        simp [hc, hd, hkeq', zeros]
      · -- the last digit wraps but an earlier digit absorbs the carry
        have hmul : ns.prod * (k / ns.prod + 1) = k + 1 := by
          rw [Nat.mul_succ]
          omega
        have hdm2 : (k + 1) / ns.prod = k / ns.prod + 1 ∧
            (k + 1) % ns.prod = 0 :=
          (Nat.div_mod_unique (by omega)).mpr
            ⟨by rw [Nat.zero_add]; exact hmul, by omega⟩
        have hlt : k + 1 < (n :: ns).prod := by
          rw [List.prod_cons, ← hmul, Nat.mul_comm n ns.prod]
          exact mul_lt_mul_of_pos_left (by omega) (by omega)
        have hlt' : k + 1 < n * ns.prod := by
          rw [← List.prod_cons]
          exact hlt
        rw [if_neg (Nat.ne_of_lt hlt)]
        simp only [mixedRadix]
        rw [hdm2.1, hdm2.2, mixedRadix_zero]
        simp [hc, hd, Nat.ne_of_lt hlt, Nat.ne_of_lt hlt']
    · -- no carry at all: only the last digit advances
      have hdm2 : (k + 1) / ns.prod = k / ns.prod ∧
          (k + 1) % ns.prod = k % ns.prod + 1 :=
        (Nat.div_mod_unique (by omega)).mpr ⟨by omega, by omega⟩
      have hne : k + 1 ≠ (n :: ns).prod := by
        intro heq
        have h0 : (k + 1) % ns.prod = 0 := by
          rw [heq, List.prod_cons]
          exact Nat.mul_mod_left n ns.prod
        rw [hdm2.2] at h0
        omega
      have hne' : ¬ (k + 1 = n * ns.prod) := by
        rw [← List.prod_cons]
        exact hne
      rw [if_neg hne]
      simp only [mixedRadix]
      rw [hdm2.1, hdm2.2]
      simp [hc, hne, hne']

theorem allZero_mixedRadix_iff {counts : List Nat}
    (h : ∀ c ∈ counts, 1 ≤ c) {k : Nat} (hk : k < counts.prod) :
    (allZero (mixedRadix counts k) = true) ↔ k = 0 :=
  Iff.trans
    (allZero_iff_eq_zeros counts (mixedRadix counts k)
      (mixedRadix_length counts k))
    (mixedRadix_eq_zeros_iff counts h k hk)

theorem allZero_zeros (counts : List Nat) : allZero (zeros counts) = true := by
  simp [allZero, zeros]

theorem runEnum_mixedRadix (counts : List Nat) (h : ∀ c ∈ counts, 1 ≤ c) :
    ∀ m k, 1 ≤ m → k + m = counts.prod →
      runEnum counts m (mixedRadix counts k)
        = ((List.range' k m).map (mixedRadix counts), true) := by
  intro m
  induction m with
  | zero => intro k h1 _; omega
  | succ m ih =>
    intro k h1 hkm
    have hk : k < counts.prod := by omega
    by_cases hm : m = 0
    · subst hm
      have hinc := inc_mixedRadix counts h k hk
      rw [if_pos (by omega)] at hinc
      simp only [runEnum]
      rw [hinc]
      simp [allZero_zeros, List.range']
    · have hk1 : k + 1 < counts.prod := by omega
      have hinc := inc_mixedRadix counts h k hk
      rw [if_neg (by omega)] at hinc
      simp only [runEnum]
      rw [hinc]
      have hnz : allZero (mixedRadix counts (k + 1)) = false := by
        cases hb : allZero (mixedRadix counts (k + 1)) with
        | false => rfl
        | true =>
          have := (allZero_mixedRadix_iff h hk1).mp hb
          omega
      simp only [hnz]
      rw [ih (k + 1) (by omega) (by omega)]
      simp [List.range']

theorem incN_mixedRadix (counts : List Nat) (h : ∀ c ∈ counts, 1 ≤ c) :
    ∀ m, m < counts.prod →
      incN counts m (zeros counts) = mixedRadix counts m := by
  intro m
  induction m with
  | zero => simp [incN, mixedRadix_zero]
  | succ m ih =>
    intro hm
    have hm' : m < counts.prod := by omega
    simp only [incN]
    rw [ih hm']
    have hinc := inc_mixedRadix counts h m hm'
    rw [if_neg (by omega)] at hinc
    rw [hinc]

theorem incN_prod_eq_zeros (counts : List Nat) (h : ∀ c ∈ counts, 1 ≤ c) :
    incN counts counts.prod (zeros counts) = zeros counts := by
  have hP : 1 ≤ counts.prod := one_le_prod_counts h
  obtain ⟨m, hm⟩ : ∃ m, counts.prod = m + 1 := ⟨counts.prod - 1, by omega⟩
  rw [hm]
  simp only [incN]
  rw [incN_mixedRadix counts h m (by omega)]
  have hinc := inc_mixedRadix counts h m (by omega)
  rw [if_pos (by omega)] at hinc
  rw [hinc]

theorem jobCounts_ge_one {party : List PlayerCharacter}
    (hjobs : ∀ p ∈ party, 1 ≤ p.class_jobs.length) :
    ∀ c ∈ jobCounts party, 1 ≤ c := by
  intro c hc
  simp only [jobCounts, List.mem_map] at hc
  obtain ⟨p, hp, rfl⟩ := hc
  exact hjobs p hp

theorem count_zeros_in_enum (counts : List Nat) (h : ∀ c ∈ counts, 1 ≤ c) :
    ((List.range' 0 counts.prod).map (mixedRadix counts)).count
      (zeros counts) = 1 := by
  have hP : 1 ≤ counts.prod := one_le_prod_counts h
  rw [List.count_eq_countP, List.countP_map]
  have hcong : List.countP
        ((fun x => x == zeros counts) ∘ mixedRadix counts)
        (List.range' 0 counts.prod)
      = List.countP (fun k => k == 0) (List.range' 0 counts.prod) := by
    apply List.countP_congr
    intro k hk
    obtain ⟨-, hklt⟩ := List.mem_range'_1.mp hk
    simp only [Function.comp, beq_iff_eq]
    exact mixedRadix_eq_zeros_iff counts h k (by omega)
  rw [hcong, ← List.count_eq_countP]
  exact List.count_eq_one_of_mem (List.nodup_range' ..)
    (List.mem_range'_1.mpr ⟨by omega, by omega⟩)

/-- C4: for a party whose members all own at least one job record, the
enumerator produces exactly the product of the job-counts assignments, in
mixed-radix counting order (the sequence is the digit expansions of
`0, 1, 2, ...` with the last member's digit varying fastest), and the
all-zero assignment appears exactly once, first. -/
theorem enumerator_counts_and_order (party : List PlayerCharacter)
    (hjobs : ∀ p ∈ party, 1 ≤ p.class_jobs.length) :
    runEnum (jobCounts party) (jobCounts party).prod (zeros (jobCounts party))
      = ((List.range (jobCounts party).prod).map (mixedRadix (jobCounts party)),
         true) ∧
    (runEnum (jobCounts party) (jobCounts party).prod
        (zeros (jobCounts party))).1.length = (jobCounts party).prod ∧
    (runEnum (jobCounts party) (jobCounts party).prod
        (zeros (jobCounts party))).1.head? = some (zeros (jobCounts party)) ∧
    (runEnum (jobCounts party) (jobCounts party).prod
        (zeros (jobCounts party))).1.count (zeros (jobCounts party)) = 1 := by
  have hcounts := jobCounts_ge_one hjobs
  have hP : 1 ≤ (jobCounts party).prod := one_le_prod_counts hcounts
  have hmain : runEnum (jobCounts party) (jobCounts party).prod
      (zeros (jobCounts party))
      = ((List.range' 0 (jobCounts party).prod).map
          (mixedRadix (jobCounts party)), true) := by
    have h := runEnum_mixedRadix (jobCounts party) hcounts
      (jobCounts party).prod 0 hP (by omega)
    rw [mixedRadix_zero] at h
    exact h
  refine ⟨?_, ?_, ?_, ?_⟩
  · rw [hmain, List.range_eq_range']
  · rw [hmain]
    simp
  · rw [hmain]
    obtain ⟨m, hm⟩ : ∃ m, (jobCounts party).prod = m + 1 :=
      ⟨(jobCounts party).prod - 1, by omega⟩
    rw [hm, show List.range' 0 (m + 1) = 0 :: List.range' 1 m from rfl]
    simp [mixedRadix_zero]
  · rw [hmain]
    exact count_zeros_in_enum (jobCounts party) hcounts

/-- Witness for C4 at a concrete party with job-counts 2 and 1. -/
theorem enumerator_counts_and_order_witness :
    (∀ p ∈ partyW, 1 ≤ p.class_jobs.length) ∧
    (runEnum (jobCounts partyW) (jobCounts partyW).prod
        (zeros (jobCounts partyW))
      = ((List.range (jobCounts partyW).prod).map (mixedRadix (jobCounts partyW)),
         true) ∧
    (runEnum (jobCounts partyW) (jobCounts partyW).prod
        (zeros (jobCounts partyW))).1.length = (jobCounts partyW).prod ∧
    (runEnum (jobCounts partyW) (jobCounts partyW).prod
        (zeros (jobCounts partyW))).1.head? = some (zeros (jobCounts partyW)) ∧
    (runEnum (jobCounts partyW) (jobCounts partyW).prod
        (zeros (jobCounts partyW))).1.count (zeros (jobCounts partyW)) = 1) :=
  ⟨by decide, enumerator_counts_and_order partyW (by decide)⟩

/-- C7: with every member owning at least one job record, the search loop
halts by explicit full-cycle detection: the odometer first returns to the
all-zero combination after exactly the product of the job-counts
advances — never earlier — and the loop, run on the all-zero start, reports
completion rather than exhausting its iteration bound. -/
theorem search_loop_full_cycle_termination (party : List PlayerCharacter)
    (hjobs : ∀ p ∈ party, 1 ≤ p.class_jobs.length) :
    incN (jobCounts party) (jobCounts party).prod (zeros (jobCounts party))
      = zeros (jobCounts party) ∧
    (∀ m, 0 < m → m < (jobCounts party).prod →
      incN (jobCounts party) m (zeros (jobCounts party))
        ≠ zeros (jobCounts party)) ∧
    (runEnum (jobCounts party) (jobCounts party).prod
        (zeros (jobCounts party))).2 = true := by
  have hcounts := jobCounts_ge_one hjobs
  have hP : 1 ≤ (jobCounts party).prod := one_le_prod_counts hcounts
  refine ⟨incN_prod_eq_zeros _ hcounts, ?_, ?_⟩
  · intro m hm0 hmP
    rw [incN_mixedRadix _ hcounts m hmP]
    intro heq
    have := (mixedRadix_eq_zeros_iff _ hcounts m hmP).mp heq
    omega
  · have h := runEnum_mixedRadix (jobCounts party) hcounts
      (jobCounts party).prod 0 hP (by omega)
    rw [mixedRadix_zero] at h
    rw [h]

/-- Witness for C7 at a concrete party with job-counts 2 and 1: the
odometer returns to all-zero exactly at step 2. -/
theorem search_loop_full_cycle_termination_witness :
    (∀ p ∈ partyW, 1 ≤ p.class_jobs.length) ∧
    (incN (jobCounts partyW) (jobCounts partyW).prod (zeros (jobCounts partyW))
      = zeros (jobCounts partyW) ∧
    (∀ m, 0 < m → m < (jobCounts partyW).prod →
      incN (jobCounts partyW) m (zeros (jobCounts partyW))
        ≠ zeros (jobCounts partyW)) ∧
    (runEnum (jobCounts partyW) (jobCounts partyW).prod
        (zeros (jobCounts partyW))).2 = true) :=
  ⟨by decide, search_loop_full_cycle_termination partyW (by decide)⟩

/-- C6 (code defect): for a party whose first member has no job records,
the first loop iteration evaluates `party[0].class_jobs[combination[0]]`
with `combination = [0, 0]` before any emptiness check, and that access is
out of bounds — here `chosen` returns `none`, which in the Rust source is
an index panic — so the search does not complete normally with an empty
ranking store as the specification requires. -/
theorem zero_jobs_member_out_of_bounds :
    chosen [⟨[], "A"⟩, ⟨[⟨6, 50, "CNJ"⟩], "B"⟩]
        (zeros (jobCounts [⟨[], "A"⟩, ⟨[⟨6, 50, "CNJ"⟩], "B"⟩])) = none ∧
    zeros (jobCounts [⟨[], "A"⟩, ⟨[⟨6, 50, "CNJ"⟩], "B"⟩]) = [0, 0] := by
  decide

/-- Witness for C3 at a concrete two-element store with variances 7 and 3:
the drained variance sequence is non-decreasing. -/
theorem popBest_sequence_var_nondecreasing_witness :
    List.Chain' (fun a b => a ≤ b)
      ((drain [⟨[0, 0, 0, 0], 7, 1⟩, ⟨[0, 0, 0, 0], 3, 1⟩]).map
        PartyConfig.var) :=
  popBest_sequence_var_nondecreasing
    [⟨[0, 0, 0, 0], 7, 1⟩, ⟨[0, 0, 0, 0], 3, 1⟩]

/-- Witness for C9 at a concrete input stream: the presenter on the empty
store prints nothing and reads nothing. -/
theorem presenter_empty_store_does_nothing_witness :
    presenter (fun _ => "") [] = ([], 0) :=
  presenter_empty_store_does_nothing (fun _ => "")

/-- Witness for C2 at a concrete assignment with levels 50 and 20. -/
theorem pushed_config_variance_witness :
    (score [0, 0] [⟨1, 50, "GLA"⟩, ⟨6, 20, "CNJ"⟩]).var
        = var_sum (([⟨1, 50, "GLA"⟩, ⟨6, 20, "CNJ"⟩] : List ClassJob).map
            (fun j => j.level)) ∧
    (score [0, 0] [⟨1, 50, "GLA"⟩, ⟨6, 20, "CNJ"⟩]).var
        = 2 * pairSum (([⟨1, 50, "GLA"⟩, ⟨6, 20, "CNJ"⟩] : List ClassJob).map
            (fun j => j.level)) ∧
    Even ((score [0, 0] [⟨1, 50, "GLA"⟩, ⟨6, 20, "CNJ"⟩]).var) :=
  pushed_config_variance [0, 0] [⟨1, 50, "GLA"⟩, ⟨6, 20, "CNJ"⟩]

end XivLevelling
